import Mathlib

/-!
Verification of the Memory Mirror conversation-playback synchronization core.

The definitions below are a shallow embedding of the client-side pipeline:

* `wordSegments` embeds the segment builder of
  `frontend/src/components/mirror/transcript-viewer.tsx` (`wordSegments`),
  with its three branches: no alignment, word-level timing, character-level
  timing.
* `locateCurrentWord` embeds the `findIndex` word locator of the
  `currentWordIndex` effect.
* `isSpoken`, `isCurrent`, `isClickable`, `handleWordClick` embed the render
  flags and the click-to-seek handler.
* `queryMemoryService`, `queryMemoryAction`, `processQueryResult` embed the
  reply pipeline of `services/memory-service.ts` (`queryMemoryService`),
  the `queryMemory` server action, and the `queryMemoryMutation` of
  `mirror-interface.tsx`.

Modelling conventions: JavaScript numbers that can become `NaN` or
`undefined` (timing values read from possibly too-short arrays) are
`Option ℚ`, with `none` standing for not-a-number; comparisons against
`none` are false, as in JavaScript. Strings scanned character by character
are `List Char`.
-/

/-- Character class of the JavaScript regular expression `\s` (the common
members; the exotic unicode members never occur in the claims). -/
def isWs (c : Char) : Bool :=
  c = ' ' || c = '\t' || c = '\n' || c = '\r' || c = '\x0b' || c = '\x0c'

/-- JavaScript `String.prototype.trim` on a character list. -/
def jsTrim (cs : List Char) : List Char :=
  ((cs.dropWhile isWs).reverse.dropWhile isWs).reverse

/-- Scan behind `jsSplitWs`: `cur` is the reversed current field, `inRun`
records that the previous character was whitespace (so a run of whitespace
produces a single separation). -/
def jsSplitWsAux : List Char → List Char → Bool → List (List Char)
  | [], cur, _ => [cur.reverse]
  | c :: rest, cur, inRun =>
    if isWs c then
      if inRun then jsSplitWsAux rest cur inRun
      else cur.reverse :: jsSplitWsAux rest [] true
    else jsSplitWsAux rest (c :: cur) false

/-- JavaScript `text.split(/\s+/)`: fields between maximal whitespace runs.
A leading run yields an empty first field and a trailing run an empty last
field; the empty string yields one empty field. -/
def jsSplitWs (cs : List Char) : List (List Char) :=
  jsSplitWsAux cs [] false

/-- Whether the first character of the list is whitespace (false for the
empty list). -/
def startsWs (cs : List Char) : Bool :=
  match cs with
  | [] => false
  | c :: _ => isWs c

/-- Whether the last character of the list is whitespace (false for the
empty list). -/
def endsWs : List Char → Bool
  | [] => false
  | [c] => isWs c
  | _ :: c :: rest => endsWs (c :: rest)

/-- Specification-side count of the non-empty whitespace-delimited tokens of
a narrative: the non-empty fields of the whitespace split. -/
def nonemptyTokenCount (cs : List Char) : Nat :=
  ((jsSplitWs cs).filter (fun w => !w.isEmpty)).length

/-- One entry of the word-level alignment (`AlignmentWord` in
`types/memory.ts`); the unused `confidence` field is omitted. -/
structure AlignmentWord where
  text : List Char
  start : ℚ
  «end» : ℚ
deriving DecidableEq, Repr

/-- The alignment payload (`AlignmentData` in `types/memory.ts`); the unused
optional `confidence` field is omitted. -/
structure AlignmentData where
  characters : List Char
  character_start_times_ms : List ℚ
  character_end_times_ms : List ℚ
  words : Option (List AlignmentWord)
deriving DecidableEq, Repr

/-- A derived word segment (`WordSegment` in `transcript-viewer.tsx`).
`none` in a time field is a `NaN` produced from an out-of-bounds timing
array read. -/
structure WordSegment where
  word : List Char
  startTime : Option ℚ
  endTime : Option ℚ
  index : Nat
deriving DecidableEq, Repr

/-- The two characters the character-level scan treats as word boundaries
(`char === " " || char === "\n"`). -/
def isBoundaryChar (c : Char) : Bool :=
  c = ' ' || c = '\n'

/-- Mutable state of the character-level scan loop: emitted segments,
the current word buffer, its start time, and the running index. -/
structure CharScanState where
  words : List WordSegment
  currentWord : List Char
  wordStartTime : Option ℚ
  wordIndex : Nat
deriving DecidableEq, Repr

/-- One iteration of the `alignment.characters.forEach` loop at position `i`:
a boundary character emits the trimmed buffer (when non-empty) with the
boundary character's end time; any other character is accumulated, recording
its start time when the buffer was empty. -/
def charStep (starts ends : List ℚ) (st : CharScanState) (i : Nat) (c : Char) :
    CharScanState :=
  let startTimeMs := starts.get? i
  let endTimeMs := ends.get? i
  if isBoundaryChar c then
    if jsTrim st.currentWord = [] then st
    else
      { words := st.words ++
          [⟨jsTrim st.currentWord, st.wordStartTime.map (· / 1000),
            endTimeMs.map (· / 1000), st.wordIndex⟩],
        currentWord := [],
        wordStartTime := st.wordStartTime,
        wordIndex := st.wordIndex + 1 }
  else
    { words := st.words,
      currentWord := st.currentWord ++ [c],
      wordStartTime := if st.currentWord = [] then startTimeMs else st.wordStartTime,
      wordIndex := st.wordIndex }

/-- The `forEach` loop over the characters, threading the position `i`. -/
def charScanAux (starts ends : List ℚ) : List Char → Nat → CharScanState → CharScanState
  | [], _, st => st
  | c :: rest, i, st => charScanAux starts ends rest (i + 1) (charStep starts ends st i c)

/-- Character-level branch of the segment builder: run the scan from the
initial state and, when a non-empty trimmed buffer remains, append one final
segment ending at the end time of the last payload character. (The
`chars.length - 1` read is only reached with a non-empty buffer, hence with
non-empty `chars`.) -/
def charSegments (chars : List Char) (starts ends : List ℚ) : List WordSegment :=
  let st := charScanAux starts ends chars 0 ⟨[], [], some 0, 0⟩
  if jsTrim st.currentWord = [] then st.words
  else
    st.words ++
      [⟨jsTrim st.currentWord, st.wordStartTime.map (· / 1000),
        (ends.get? (chars.length - 1)).map (· / 1000), st.wordIndex⟩]

/-- Fallback branch: split the narrative on whitespace runs and emit
zero-timed segments. -/
def zeroSegments (text : List Char) : List WordSegment :=
  (jsSplitWs text).enum.map (fun p => ⟨p.2, some 0, some 0, p.1⟩)

/-- Word-level branch: map each alignment word to a segment. -/
def wordLevelSegments (ws : List AlignmentWord) : List WordSegment :=
  ws.enum.map (fun p => ⟨p.2.text, some p.2.start, some p.2.«end», p.1⟩)

/-- The segment builder `wordSegments` of `transcript-viewer.tsx`: prefer
word-level timing, then character-level timing, else the zero-timed
fallback. -/
def wordSegments (text : List Char) (alignment : Option AlignmentData) :
    List WordSegment :=
  match alignment with
  | none => zeroSegments text
  | some a =>
    match a.words with
    | some ws =>
      if 0 < ws.length then wordLevelSegments ws
      else if a.characters.length = 0 then zeroSegments text
      else charSegments a.characters a.character_start_times_ms a.character_end_times_ms
    | none =>
      if a.characters.length = 0 then zeroSegments text
      else charSegments a.characters a.character_start_times_ms a.character_end_times_ms

/-- Characterization of a segment emitted at a space or newline boundary of
the character-level scan: for some non-boundary position `f` (the first
character accumulated into the word buffer `buf`) and boundary position `b`,
the segment is the trimmed buffer, starts at the start time of position `f`
(milliseconds to seconds) and ends at the end time of the boundary
position `b`. -/
def EmittedAtBoundary (chars : List Char) (starts ends : List ℚ)
    (s : WordSegment) : Prop :=
  ∃ f b buf cf cb,
    f < b ∧ b < chars.length ∧
    chars.get? f = some cf ∧ isBoundaryChar cf = false ∧
    chars.get? b = some cb ∧ isBoundaryChar cb = true ∧
    buf ≠ [] ∧ buf.head? = chars.get? f ∧
    s.word = jsTrim buf ∧
    s.startTime = (starts.get? f).map (· / 1000) ∧
    s.endTime = (ends.get? b).map (· / 1000)

/-- Characterization of the final segment of the character-level scan: the
trimmed remaining buffer, starting at the start time of its first
accumulated character and ending at the end time of the last payload
character. -/
def EmittedAtEnd (chars : List Char) (starts ends : List ℚ)
    (s : WordSegment) : Prop :=
  ∃ f buf cf,
    f < chars.length ∧
    chars.get? f = some cf ∧ isBoundaryChar cf = false ∧
    buf ≠ [] ∧ buf.head? = chars.get? f ∧
    s.word = jsTrim buf ∧
    s.startTime = (starts.get? f).map (· / 1000) ∧
    s.endTime = (ends.get? (chars.length - 1)).map (· / 1000)

/-- Invariant of the character-level scan used for start-time monotonicity:
the start times emitted so far are, in order, a sublist of the prefix of the
start-time array already read (divided by 1000), and the pending buffer's
start time extends that sublist. -/
def CharStartInv (s : List ℚ) (i : Nat) (st : CharScanState) : Prop :=
  ∃ ms : List ℚ,
    st.words.map WordSegment.startTime = ms.map (fun v => some (v / 1000)) ∧
    List.Sublist ms (s.take i) ∧
    (st.currentWord ≠ [] → ∃ v, st.wordStartTime = some v ∧
      List.Sublist (ms ++ [v]) (s.take i))

/-- Invariant of the character-level scan used for the boundary
characterization: every emitted segment was emitted at a boundary, and a
non-empty buffer started at some earlier non-boundary character whose start
time is the recorded word start time. -/
def CharEmitInv (chars : List Char) (starts ends : List ℚ) (i : Nat)
    (st : CharScanState) : Prop :=
  (∀ s ∈ st.words, EmittedAtBoundary chars starts ends s) ∧
  (st.currentWord ≠ [] → ∃ f cf, f < i ∧ chars.get? f = some cf ∧
    isBoundaryChar cf = false ∧ st.currentWord.head? = chars.get? f ∧
    st.wordStartTime = starts.get? f)

/-- The `findIndex` predicate of the `currentWordIndex` effect:
`currentTime >= word.startTime && currentTime < word.endTime`; a `NaN`
time makes both comparisons false. -/
def segMatches (t : ℚ) (w : WordSegment) : Bool :=
  (match w.startTime with | some a => decide (a ≤ t) | none => false) &&
  (match w.endTime with | some b => decide (t < b) | none => false)

/-- `words.findIndex(...)` of the `currentWordIndex` effect; `none` models
the `-1` result. -/
def locateCurrentWord : List WordSegment → ℚ → Option Nat
  | [], _ => none
  | w :: rest, t => if segMatches t w then some 0 else (locateCurrentWord rest t).map (· + 1)

/-- The `currentWordIndex` state at playback time `t`: the effect returns
early when `alignment` is null, leaving the initial `-1`. -/
def currentWordIndexState (text : List Char) (alignment : Option AlignmentData)
    (t : ℚ) : Option Nat :=
  match alignment with
  | none => none
  | some _ => locateCurrentWord (wordSegments text alignment) t

/-- Render flag `isSpoken = alignment && currentTime > word.endTime`. -/
def isSpoken (alignment : Option AlignmentData) (t : ℚ) (w : WordSegment) : Bool :=
  alignment.isSome &&
    (match w.endTime with | some b => decide (b < t) | none => false)

/-- Render flag `isCurrent = index === currentWordIndex`. -/
def isCurrent (idx : Option Nat) (i : Nat) : Bool :=
  idx = some i

/-- Render flag `isClickable = alignment && word.startTime > 0`. -/
def isClickable (alignment : Option AlignmentData) (w : WordSegment) : Bool :=
  alignment.isSome &&
    (match w.startTime with | some v => decide (0 < v) | none => false)

/-- `handleWordClick` of `transcript-viewer.tsx`, as a function of the bound
audio element's presence, the alignment, the playing flag and the playback
position. Result: new position, whether play was requested, new playing
flag. -/
def handleWordClick (hasAudio : Bool) (alignment : Option AlignmentData)
    (playing : Bool) (time : Option ℚ) (w : WordSegment) :
    Option ℚ × Bool × Bool :=
  if hasAudio && alignment.isSome then
    (w.startTime, !playing, true)
  else (time, false, playing)

/-- The rendered word's `onClick` wiring: the handler only runs when the
segment is clickable. -/
def onWordClick (hasAudio : Bool) (alignment : Option AlignmentData)
    (playing : Bool) (time : Option ℚ) (w : WordSegment) :
    Option ℚ × Bool × Bool :=
  if isClickable alignment w then handleWordClick hasAudio alignment playing time w
  else (time, false, playing)

/-! ## Reply-generation pipeline (`queryMemoryService`, `queryMemory`,
`queryMemoryMutation`) -/

/-- Response of the Python backend `generate-response` endpoint
(`GenerateResponseResponse` in `memory-service.ts`); the unused `error`
field is omitted. -/
structure GenerateResponseResponse where
  success : Bool
  video_url : Option String
  audio_base64 : Option String
  narrative : Option String
  message : Option String
deriving DecidableEq, Repr

/-- `QueryMemoryResponse` of `types/memory.ts`. -/
structure QueryMemoryResponse where
  success : Bool
  videoUrl : Option String
  audioBase64 : Option String
  narrative : Option String
  alignment : Option AlignmentData
  message : Option String
deriving DecidableEq, Repr

/-- JavaScript `x || d` on an optional string: `undefined` and the empty
string are falsy. -/
def jsOrElse (x : Option String) (d : String) : String :=
  match x with
  | some s => if s = "" then d else s
  | none => d

/-- JavaScript truthiness of an optional string. -/
def truthy (x : Option String) : Bool :=
  match x with
  | some s => s ≠ ""
  | none => false

/-- `queryMemoryService` of `memory-service.ts`: the `generateResponse` call
either throws (the `catch` branch wraps the message) or returns a response;
`success=false` forwards the collaborator's message. -/
def queryMemoryService (resp : Except String GenerateResponseResponse) :
    QueryMemoryResponse :=
  match resp with
  | .error e =>
    ⟨false, none, none, none, none, some ("Failed to query memory: " ++ e)⟩
  | .ok r =>
    if r.success then
      ⟨true, r.video_url, r.audio_base64, r.narrative, none, none⟩
    else
      ⟨false, none, none, none, none,
        some (jsOrElse r.message "Failed to generate response")⟩

/-- Result shape of the `queryMemory` server action. -/
structure QueryMemoryResult where
  success : Bool
  data : Option QueryMemoryResponse
  error : Option String
deriving DecidableEq, Repr

/-- The `queryMemory` server action: search miss and database miss
short-circuit; otherwise the service result is wrapped, turning a failure
message into the `error` field. -/
def queryMemoryAction (searchHit : Bool) (dbHit : Bool)
    (serviceResult : QueryMemoryResponse) : QueryMemoryResult :=
  if !searchHit then ⟨false, none, some "No matching memory found"⟩
  else if !dbHit then ⟨false, none, some "Video data not found in database"⟩
  else if serviceResult.success then ⟨true, some serviceResult, none⟩
  else ⟨false, none, some (jsOrElse serviceResult.message "Failed to generate response")⟩

/-- State of `MirrorInterface` touched by the query mutation. -/
structure MirrorState where
  currentVideoUrl : Option String
  captionText : String
  isPlaying : Bool
  currentAudioUrl : Option String
  currentAlignment : Option AlignmentData
  currentUserPrompt : String
deriving DecidableEq, Repr

/-- The user-visible toast resulting from one mutation round. -/
inductive ToastOutcome where
  | success : ToastOutcome
  | failure : String → ToastOutcome
  | silent : ToastOutcome
deriving DecidableEq, Repr

/-- `queryMemoryMutation` of `mirror-interface.tsx`: `mutationFn` throws on
`success=false` or missing data (the thrown message reaches `onError`);
`onSuccess` updates the state only when video, audio and narrative are all
truthy. -/
def processQueryResult (st : MirrorState) (prompt : String)
    (result : QueryMemoryResult) : MirrorState × ToastOutcome :=
  match result.success, result.data with
  | true, some d =>
    if truthy d.videoUrl && truthy d.audioBase64 && truthy d.narrative then
      ({ currentVideoUrl := d.videoUrl,
         captionText := d.narrative.getD "",
         isPlaying := true,
         currentAudioUrl := some ("data:audio/mpeg;base64," ++ d.audioBase64.getD ""),
         currentAlignment := d.alignment,
         currentUserPrompt := prompt }, ToastOutcome.success)
    else (st, ToastOutcome.silent)
  | _, _ => (st, ToastOutcome.failure (jsOrElse result.error "Failed to query memory"))

/-! ## Lemmas about the whitespace splitter -/

theorem endsWs_cons (c : Char) (l : List Char) (h : l ≠ []) :
    endsWs (c :: l) = endsWs l := by
  cases l with
  | nil => exact absurd rfl h
  | cons d rest => rfl

theorem endsWs_of_all_ws (l : List Char) (hne : l ≠ [])
    (h : ∀ x ∈ l, isWs x = true) : endsWs l = true := by
  induction l with
  | nil => exact absurd rfl hne
  | cons c rest ih =>
    cases rest with
    | nil => simpa [endsWs] using h c (by simp)
    | cons d r =>
      rw [endsWs_cons c _ (by simp)]
      exact ih (by simp) (fun x hx => h x (List.mem_cons_of_mem _ hx))

theorem jsSplitWsAux_ne_nil :
    ∀ (cs cur : List Char) (inRun : Bool),
      endsWs cs = false →
      (cur ≠ [] ∨ (∃ c, cs.head? = some c ∧ isWs c = false) ∨
        (inRun = true ∧ ∃ d ∈ cs, isWs d = false)) →
      ∀ w ∈ jsSplitWsAux cs cur inRun, w ≠ [] := by
  intro cs
  induction cs with
  | nil =>
    intro cur inRun _ hd w hw
    have hcur : cur ≠ [] := by
      rcases hd with h | h | h
      · exact h
      · rcases h with ⟨c, hc, _⟩; simp at hc
      · rcases h with ⟨_, d, hd, _⟩; simp at hd
    simp only [jsSplitWsAux, List.mem_singleton] at hw
    rw [hw]
    simpa using hcur
  | cons c rest ih =>
    intro cur inRun hend hd w hw
    cases hc : isWs c with
    | false =>
      -- head is not whitespace: accumulate
      have hw' : w ∈ jsSplitWsAux rest (c :: cur) false := by
        simpa [jsSplitWsAux, hc] using hw
      have hend' : endsWs rest = false := by
        cases rest with
        | nil => rfl
        | cons d r => rw [endsWs_cons c _ (by simp)] at hend; exact hend
      exact ih (c :: cur) false hend' (Or.inl (by simp)) w hw'
    | true =>
      -- head is whitespace
      have hrest_ne : rest ≠ [] := by
        intro h
        subst h
        simp [endsWs, hc] at hend
      have hend' : endsWs rest = false := by
        rw [endsWs_cons c rest hrest_ne] at hend; exact hend
      have hex : ∃ d ∈ rest, isWs d = false := by
        by_contra hall
        push_neg at hall
        have hterm : endsWs rest = true :=
          endsWs_of_all_ws rest hrest_ne (fun x hx => by
            have hx2 := hall x hx
            cases h2 : isWs x with
            | false => exact absurd h2 hx2
            | true => rfl)
        rw [hterm] at hend'
        cases hend'
      cases inRun with
      | true =>
        have hd' : cur ≠ [] ∨ (∃ e, rest.head? = some e ∧ isWs e = false) ∨
            (true = true ∧ ∃ d ∈ rest, isWs d = false) := by
          rcases hd with h | h | h
          · exact Or.inl h
          · rcases h with ⟨e, he, hwse⟩
            simp only [List.head?_cons, Option.some.injEq] at he
            subst he
            rw [hc] at hwse
            cases hwse
          · exact Or.inr (Or.inr ⟨rfl, hex⟩)
        exact ih cur true hend' hd' w (by simpa [jsSplitWsAux, hc] using hw)
      | false =>
        have hcur : cur ≠ [] := by
          rcases hd with h | h | h
          · exact h
          · rcases h with ⟨e, he, hwse⟩
            simp only [List.head?_cons, Option.some.injEq] at he
            subst he
            rw [hc] at hwse
            cases hwse
          · simp at h
        have hw' : w = cur.reverse ∨ w ∈ jsSplitWsAux rest [] true := by
          simpa [jsSplitWsAux, hc] using hw
        rcases hw' with hw' | hw'
        · rw [hw']; simpa using hcur
        · exact ih [] true hend' (Or.inr (Or.inr ⟨rfl, hex⟩)) w hw'

/-- Claim C1 (amended). When the alignment is absent, or present with empty
word and character arrays, the segment builder returns one segment per field
of the JavaScript whitespace split, which equals the number of non-empty
whitespace-delimited tokens whenever the non-empty narrative neither starts
nor ends with whitespace; with a non-empty word-level alignment, the output
length equals the number of alignment word entries, independently of the
narrative. -/
theorem c1_segment_count_amended :
    (∀ cs : List Char, cs ≠ [] → startsWs cs = false → endsWs cs = false →
      (wordSegments cs none).length = nonemptyTokenCount cs) ∧
    (∀ (cs : List Char) (a : AlignmentData),
      (a.words = none ∨ a.words = some []) → a.characters = [] →
      wordSegments cs (some a) = wordSegments cs none) ∧
    (∀ (cs : List Char) (a : AlignmentData) (ws : List AlignmentWord),
      a.words = some ws → 0 < ws.length →
      (wordSegments cs (some a)).length = ws.length) := by
  refine ⟨?_, ?_, ?_⟩
  · intro cs hne hhead hend
    have hfields : ∀ w ∈ jsSplitWs cs, w ≠ [] := by
      apply jsSplitWsAux_ne_nil cs [] false hend
      right; left
      cases cs with
      | nil => exact absurd rfl hne
      | cons c rest => exact ⟨c, rfl, by simpa [startsWs] using hhead⟩
    have hfilter : (jsSplitWs cs).filter (fun w => !w.isEmpty) = jsSplitWs cs := by
      apply List.filter_eq_self.mpr
      intro a ha
      cases a with
      | nil => exact absurd rfl (hfields _ ha)
      | cons x xs => rfl
    unfold nonemptyTokenCount
    rw [hfilter]
    simp [wordSegments, zeroSegments]
  · intro cs a hw hc
    rcases hw with hw | hw <;> simp [wordSegments, hw, hc]
  · intro cs a ws hw hlen
    simp [wordSegments, hw, hlen, wordLevelSegments]

/-- Witness for the amended claim C1 at concrete inputs. -/
theorem c1_segment_count_amended_witness :
    ((wordSegments "ab cd".data none).length = nonemptyTokenCount "ab cd".data) ∧
    (wordSegments "x".data (some ⟨[], [], [], none⟩) = wordSegments "x".data none) ∧
    ((wordSegments "x".data
        (some ⟨"h".data, [0], [1], some [⟨"hey".data, 0, 1⟩]⟩)).length = 1) :=
  ⟨c1_segment_count_amended.1 "ab cd".data (by decide) (by decide) (by decide),
   c1_segment_count_amended.2.1 "x".data ⟨[], [], [], none⟩ (Or.inl rfl) rfl,
   c1_segment_count_amended.2.2 "x".data
     ⟨"h".data, [0], [1], some [⟨"hey".data, 0, 1⟩]⟩ [⟨"hey".data, 0, 1⟩] rfl (by decide)⟩

/-- Counterexample to claim C1 as stated: with a leading space the fallback
branch emits an empty extra segment, and with a one-entry word-level
alignment the output length ignores the narrative. -/
theorem c1_segment_count_counterexample :
    (wordSegments " hi".data none).length ≠ nonemptyTokenCount " hi".data ∧
    (wordSegments "Hi there".data
        (some ⟨[], [], [], some [⟨"Hello".data, 0, 1⟩]⟩)).length ≠
      nonemptyTokenCount "Hi there".data := by
  decide

/-! ## Claim C2: the character-level scenario -/

/-- Counterexample to claim C2 as stated: the first emitted segment does not
end at 0.2 seconds. -/
theorem c2_char_scenario_counterexample :
    wordSegments "Hi there".data
        (some ⟨"Hi there".data, [0, 100, 200, 300, 400, 500, 600, 700],
          [100, 200, 300, 400, 500, 600, 700, 800], none⟩) ≠
      [⟨"Hi".data, some 0, some (1/5), 0⟩,
       ⟨"there".data, some (3/10), some (4/5), 1⟩] := by
  with_unfolding_all decide

/-- Claim C2 (amended): the first segment ends at the end time of the
boundary space character, 300 milliseconds = 0.3 seconds, not 0.2. -/
theorem c2_char_scenario_amended :
    wordSegments "Hi there".data
        (some ⟨"Hi there".data, [0, 100, 200, 300, 400, 500, 600, 700],
          [100, 200, 300, 400, 500, 600, 700, 800], none⟩) =
      [⟨"Hi".data, some 0, some (3/10), 0⟩,
       ⟨"there".data, some (3/10), some (4/5), 1⟩] := by
  with_unfolding_all decide

/-! ## Claim C4: the word locator -/

theorem locateCurrentWord_eq_some :
    ∀ (segs : List WordSegment) (t : ℚ) (i : Nat),
      locateCurrentWord segs t = some i →
      (∃ w, segs.get? i = some w ∧ segMatches t w = true) ∧
      (∀ j, j < i → ∀ w, segs.get? j = some w → segMatches t w = false) := by
  intro segs
  induction segs with
  | nil => intro t i h; simp [locateCurrentWord] at h
  | cons s rest ih =>
    intro t i h
    cases hm : segMatches t s with
    | true =>
      have hi : i = 0 := by
        simp [locateCurrentWord, hm] at h
        omega
      subst hi
      refine ⟨⟨s, by simp, hm⟩, ?_⟩
      intro j hj
      exact absurd hj (Nat.not_lt_zero j)
    | false =>
      have h' : ∃ k, locateCurrentWord rest t = some k ∧ i = k + 1 := by
        simp only [locateCurrentWord, hm, if_false, Bool.false_eq_true] at h
        cases hrec : locateCurrentWord rest t with
        | none => rw [hrec] at h; simp at h
        | some k => rw [hrec] at h; simp at h; exact ⟨k, rfl, h.symm⟩
      rcases h' with ⟨k, hrec, rfl⟩
      have hrest := ih t k hrec
      refine ⟨?_, ?_⟩
      · rcases hrest.1 with ⟨w, hg, hmw⟩
        exact ⟨w, by simpa using hg, hmw⟩
      · intro j hj w hg
        cases j with
        | zero =>
          simp at hg
          rw [← hg]
          exact hm
        | succ j' =>
          exact hrest.2 j' (Nat.lt_of_succ_lt_succ hj) w (by simpa using hg)

theorem locateCurrentWord_eq_none :
    ∀ (segs : List WordSegment) (t : ℚ),
      locateCurrentWord segs t = none ↔ ∀ w ∈ segs, segMatches t w = false := by
  intro segs t
  induction segs with
  | nil => simp [locateCurrentWord]
  | cons s rest ih =>
    cases hm : segMatches t s with
    | true =>
      constructor
      · intro h
        simp [locateCurrentWord, hm] at h
      · intro h
        have := h s (by simp)
        rw [hm] at this
        cases this
    | false =>
      constructor
      · intro h w hw
        rcases List.mem_cons.mp hw with hw | hw
        · rw [hw]; exact hm
        · have hrec : locateCurrentWord rest t = none := by
            simp only [locateCurrentWord, hm, if_false, Bool.false_eq_true] at h
            cases hrec : locateCurrentWord rest t with
            | none => rfl
            | some k => rw [hrec] at h; simp at h
          exact (ih.mp hrec) w hw
      · intro h
        have hrec : locateCurrentWord rest t = none :=
          ih.mpr (fun w hw => h w (List.mem_cons_of_mem _ hw))
        simp [locateCurrentWord, hm, hrec]

/-- Claim C4: the locator returns the first index whose half-open interval
contains the playback time and nothing when no interval does, and the
word-level scenario locates index 1 at 0.7 seconds and nothing at 0.55
seconds. -/
theorem c4_locator :
    (∀ (segs : List WordSegment) (t : ℚ) (i : Nat),
      locateCurrentWord segs t = some i →
      (∃ w, segs.get? i = some w ∧ segMatches t w = true) ∧
      (∀ j, j < i → ∀ w, segs.get? j = some w → segMatches t w = false)) ∧
    (∀ (segs : List WordSegment) (t : ℚ),
      locateCurrentWord segs t = none ↔ ∀ w ∈ segs, segMatches t w = false) ∧
    (locateCurrentWord
        (wordSegments "Hello world today".data
          (some ⟨[], [], [], some [⟨"Hello".data, 0, 1/2⟩, ⟨"world".data, 3/5, 1⟩,
            ⟨"today".data, 11/10, 8/5⟩]⟩)) (7/10) = some 1 ∧
     locateCurrentWord
        (wordSegments "Hello world today".data
          (some ⟨[], [], [], some [⟨"Hello".data, 0, 1/2⟩, ⟨"world".data, 3/5, 1⟩,
            ⟨"today".data, 11/10, 8/5⟩]⟩)) (11/20) = none) :=
  ⟨locateCurrentWord_eq_some, locateCurrentWord_eq_none, by with_unfolding_all decide⟩

/-- Witness for claim C4 at a concrete segment list and time. -/
theorem c4_locator_witness :
    (∃ w, [(⟨"w".data, some 0, some 1, 0⟩ : WordSegment)].get? 0 = some w ∧
        segMatches 0 w = true) ∧
    (∀ j, j < 0 → ∀ w,
        [(⟨"w".data, some 0, some 1, 0⟩ : WordSegment)].get? j = some w →
        segMatches 0 w = false) :=
  c4_locator.1 [⟨"w".data, some 0, some 1, 0⟩] 0 0 (by decide)

/-! ## Claim C5: degenerate timing and the render flags -/

/-- Claim C5 evaluated at the failing input: with an alignment payload
present but carrying empty word and character arrays, at playback time 1
every zero-timed word renders in the already-spoken state even though no
word is current; the claim demands that none render as spoken. -/
theorem c5_fallback_spoken_bug :
    ((wordSegments "Just plain text".data (some ⟨[], [], [], some []⟩)).map
        (fun w => isSpoken (some ⟨[], [], [], some []⟩) 1 w) =
      [true, true, true]) ∧
    ((wordSegments "Just plain text".data (some ⟨[], [], [], some []⟩)).map
        (fun w => (w.startTime, w.endTime)) =
      [(some 0, some 0), (some 0, some 0), (some 0, some 0)]) ∧
    currentWordIndexState "Just plain text".data (some ⟨[], [], [], some []⟩) 1 =
      none := by
  decide

/-! ## Claim C6: click-to-seek -/

/-- Counterexample to claim C6 as stated: a word-level segment with timing
0.0 to 0.5 has non-zero timing, yet it is not clickable and clicking it
changes nothing, because the code tests `word.startTime > 0`. -/
theorem c6_seek_counterexample :
    (wordSegments "Hello".data
        (some ⟨[], [], [], some [⟨"Hello".data, 0, 1/2⟩]⟩) =
      [⟨"Hello".data, some 0, some (1/2), 0⟩]) ∧
    isClickable (some ⟨[], [], [], some [⟨"Hello".data, 0, 1/2⟩]⟩)
      ⟨"Hello".data, some 0, some (1/2), 0⟩ = false ∧
    onWordClick true (some ⟨[], [], [], some [⟨"Hello".data, 0, 1/2⟩]⟩) false (some 0)
      ⟨"Hello".data, some 0, some (1/2), 0⟩ = (some 0, false, false) := by
  with_unfolding_all decide

/-- Claim C6 (amended): a word is seekable exactly when the alignment is
present and the segment's start time is strictly positive (so a timed
segment starting at 0 is not seekable); a permitted click seeks to the
segment's start time, requests play exactly when playback was not already
in progress, and leaves the state unchanged otherwise. -/
theorem c6_seek_amended :
    (∀ (a : Option AlignmentData) (w : WordSegment),
      isClickable a w = true ↔
        (a.isSome = true ∧ ∃ v, w.startTime = some v ∧ 0 < v)) ∧
    (∀ (a : Option AlignmentData) (w : WordSegment) (playing : Bool) (t : Option ℚ),
      isClickable a w = true →
      onWordClick true a playing t w = (w.startTime, !playing, true)) ∧
    (∀ (a : Option AlignmentData) (w : WordSegment) (playing : Bool) (t : Option ℚ)
      (hasAudio : Bool),
      isClickable a w = false →
      onWordClick hasAudio a playing t w = (t, false, playing)) := by
  refine ⟨?_, ?_, ?_⟩
  · intro a w
    constructor
    · intro h
      unfold isClickable at h
      rw [Bool.and_eq_true] at h
      refine ⟨h.1, ?_⟩
      cases hst : w.startTime with
      | none => rw [hst] at h; exact absurd h.2 (by simp)
      | some v =>
        have h2 := h.2
        rw [hst] at h2
        exact ⟨v, rfl, of_decide_eq_true h2⟩
    · rintro ⟨h1, v, hv, hpos⟩
      simp [isClickable, h1, hv, hpos]
  · intro a w playing t h
    have ha : a.isSome = true := by
      unfold isClickable at h
      rw [Bool.and_eq_true] at h
      exact h.1
    unfold onWordClick handleWordClick
    rw [if_pos h]
    simp [ha]
  · intro a w playing t hasAudio h
    simp [onWordClick, h]

/-- Witness for the amended claim C6: clicking a clickable word when paused
seeks to its start time and requests play. -/
theorem c6_seek_amended_witness :
    onWordClick true (some ⟨[], [], [], none⟩) false (some 0)
      ⟨"w".data, some 1, some 2, 0⟩ = (some 1, true, true) :=
  c6_seek_amended.2.1 (some ⟨[], [], [], none⟩) ⟨"w".data, some 1, some 2, 0⟩
    false (some 0) (by decide)

/-! ## Claim C3: boundary and final emission times -/

theorem charStep_emit_inv (chars : List Char) (starts ends : List ℚ) (i : Nat)
    (c : Char) (st : CharScanState) (hchar : chars.get? i = some c)
    (h : CharEmitInv chars starts ends i st) :
    CharEmitInv chars starts ends (i + 1) (charStep starts ends st i c) := by
  rcases h with ⟨hsegs, hcur⟩
  cases hb : isBoundaryChar c with
  | false =>
    constructor
    · intro s hs
      exact hsegs s (by simpa [charStep, hb] using hs)
    · intro _
      by_cases hc0 : st.currentWord = []
      · have hchar' : chars[i]? = some c := by
          rw [← List.get?_eq_getElem?]; exact hchar
        refine ⟨i, c, Nat.lt_succ_self i, hchar, hb, ?_, ?_⟩
        · simp [charStep, hb, hc0, hchar']
        · simp [charStep, hb, hc0]
      · rcases hcur hc0 with ⟨f, cf, hfi, hgf, hbf, hhead, hstart⟩
        have happ : (st.currentWord ++ [c]).head? = st.currentWord.head? := by
          cases hcc : st.currentWord with
          | nil => exact absurd hcc hc0
          | cons x xs => simp
        refine ⟨f, cf, Nat.lt_succ_of_lt hfi, hgf, hbf, ?_, ?_⟩
        · show (charStep starts ends st i c).currentWord.head? = chars.get? f
          simp only [charStep, hb, Bool.false_eq_true, if_false, if_neg hc0]
          rw [happ, hhead]
        · simp [charStep, hb, hc0, hstart]
  | true =>
    by_cases ht : jsTrim st.currentWord = []
    · constructor
      · intro s hs
        exact hsegs s (by simpa [charStep, hb, ht] using hs)
      · intro hcw
        have hcw' : st.currentWord ≠ [] := by
          simpa [charStep, hb, ht] using hcw
        rcases hcur hcw' with ⟨f, cf, hfi, hgf, hbf, hhead, hstart⟩
        exact ⟨f, cf, Nat.lt_succ_of_lt hfi, hgf, hbf,
          by simpa [charStep, hb, ht] using hhead,
          by simpa [charStep, hb, ht] using hstart⟩
    · have hcw : st.currentWord ≠ [] := by
        intro h0
        rw [h0] at ht
        exact ht rfl
      rcases hcur hcw with ⟨f, cf, hfi, hgf, hbf, hhead, hstart⟩
      have hblt : i < chars.length := (List.get?_eq_some.mp hchar).1
      constructor
      · intro s hs
        have hs' : s ∈ st.words ∨
            s = (⟨jsTrim st.currentWord, st.wordStartTime.map (· / 1000),
              (ends.get? i).map (· / 1000), st.wordIndex⟩ : WordSegment) := by
          simpa [charStep, hb, ht, List.mem_append] using hs
        rcases hs' with hs' | hs'
        · exact hsegs s hs'
        · subst hs'
          exact ⟨f, i, st.currentWord, cf, c, hfi, hblt, hgf, hbf, hchar, hb,
            hcw, hhead, rfl, by rw [hstart], rfl⟩
      · intro hcw2
        simp [charStep, hb, ht] at hcw2

theorem charScanAux_emit_inv :
    ∀ (cs : List Char) (i : Nat) (chars : List Char) (starts ends : List ℚ)
      (st : CharScanState),
      chars.drop i = cs →
      CharEmitInv chars starts ends i st →
      CharEmitInv chars starts ends (i + cs.length) (charScanAux starts ends cs i st) := by
  intro cs
  induction cs with
  | nil => intro i chars s e st _ h; simpa using h
  | cons c rest ih =>
    intro i chars s e st hdrop h
    have hchar : chars.get? i = some c := by
      have h0 : (chars.drop i).get? 0 = chars.get? (i + 0) := List.get?_drop chars i 0
      rw [hdrop] at h0
      simpa using h0.symm
    have hdrop' : chars.drop (i + 1) = rest := by
      have h1 : (chars.drop i).drop 1 = chars.drop (i + 1) := List.drop_drop 1 i chars
      rw [hdrop] at h1
      simpa using h1.symm
    have h1 := charStep_emit_inv chars s e i c st hchar h
    have h2 := ih (i + 1) chars s e _ hdrop' h1
    have harith : i + (c :: rest).length = (i + 1) + rest.length := by
      simp only [List.length_cons]; omega
    rw [harith]
    exact h2

/-- Claim C3: the output of the character-level branch splits into segments
emitted at space or newline boundaries — each starting at the start time of
the first character accumulated into its buffer and ending at the end time
of the boundary character just processed — followed by at most one final
segment emitted from the remaining non-empty trimmed buffer, ending at the
end time of the last payload character. -/
theorem c3_char_boundary_times :
    ∀ (chars : List Char) (starts ends : List ℚ),
      ∃ pre post,
        charSegments chars starts ends = pre ++ post ∧ post.length ≤ 1 ∧
        (∀ s ∈ pre, EmittedAtBoundary chars starts ends s) ∧
        (∀ s ∈ post, EmittedAtEnd chars starts ends s) := by
  intro chars s e
  have hinit : CharEmitInv chars s e 0 ⟨[], [], some 0, 0⟩ := by
    refine ⟨by simp, ?_⟩
    intro h0
    exact absurd rfl h0
  have hinv := charScanAux_emit_inv chars 0 chars s e ⟨[], [], some 0, 0⟩ (by simp) hinit
  rcases hinv with ⟨hsegs, hcur⟩
  unfold charSegments
  by_cases ht : jsTrim (charScanAux s e chars 0 ⟨[], [], some 0, 0⟩).currentWord = []
  · rw [if_pos ht]
    exact ⟨_, [], by simp, by simp, hsegs, by simp⟩
  · rw [if_neg ht]
    have hcw : (charScanAux s e chars 0 ⟨[], [], some 0, 0⟩).currentWord ≠ [] := by
      intro h0
      rw [h0] at ht
      exact ht rfl
    rcases hcur hcw with ⟨f, cf, hfi, hgf, hbf, hhead, hstart⟩
    refine ⟨_, _, rfl, by simp, hsegs, ?_⟩
    intro x hx
    have hx' : x = (⟨jsTrim (charScanAux s e chars 0 ⟨[], [], some 0, 0⟩).currentWord,
        (charScanAux s e chars 0 ⟨[], [], some 0, 0⟩).wordStartTime.map (· / 1000),
        (e.get? (chars.length - 1)).map (· / 1000),
        (charScanAux s e chars 0 ⟨[], [], some 0, 0⟩).wordIndex⟩ : WordSegment) := by
      simpa using hx
    subst hx'
    exact ⟨f, (charScanAux s e chars 0 ⟨[], [], some 0, 0⟩).currentWord, cf,
      by simpa using hfi, hgf, hbf, hcw, hhead, rfl, by rw [hstart], rfl⟩

/-! ## Claim C9: failed reply leaves the state untouched -/

/-- Claim C9: when the reply-generation collaborator answers `success=false`
with a non-empty message, or the request itself fails, the pipeline leaves
the mirror state (narrative, audio, alignment) unchanged and surfaces the
collaborator's message (respectively the wrapped request error) as the
visible failure. -/
theorem c9_failed_reply :
    (∀ (st : MirrorState) (prompt m : String) (r : GenerateResponseResponse),
      r.success = false → r.message = some m → m ≠ "" →
      processQueryResult st prompt
        (queryMemoryAction true true (queryMemoryService (Except.ok r))) =
        (st, ToastOutcome.failure m)) ∧
    (∀ (st : MirrorState) (prompt e : String),
      processQueryResult st prompt
        (queryMemoryAction true true (queryMemoryService (Except.error e))) =
        (st, ToastOutcome.failure ("Failed to query memory: " ++ e))) := by
  constructor
  · intro st prompt m r hs hm hne
    simp [queryMemoryService, queryMemoryAction, processQueryResult, jsOrElse,
      hs, hm, hne]
  · intro st prompt e
    have hne2 : ("Failed to query memory: " ++ e) ≠ "" := by
      intro hq
      have h1 : ("Failed to query memory: " ++ e).length = 0 := by rw [hq]; rfl
      rw [String.length_append] at h1
      rw [show ("Failed to query memory: ").length = 24 from rfl] at h1
      omega
    simp [queryMemoryService, queryMemoryAction, processQueryResult, jsOrElse, hne2]

/-- Witness for claim C9 with the collaborator message of the scenario. -/
theorem c9_failed_reply_witness :
    processQueryResult ⟨none, "", false, none, none, ""⟩ "what happened"
      (queryMemoryAction true true (queryMemoryService (Except.ok
        ⟨false, none, none, none, some "No matching memory found"⟩))) =
      (⟨none, "", false, none, none, ""⟩,
        ToastOutcome.failure "No matching memory found") :=
  c9_failed_reply.1 ⟨none, "", false, none, none, ""⟩ "what happened"
    "No matching memory found" ⟨false, none, none, none, some "No matching memory found"⟩
    rfl rfl (by decide)

/-! ## Claim C10: branch priority of the segment builder -/

theorem wordSegments_eq_wordLevel (text : List Char) (a : AlignmentData)
    (ws : List AlignmentWord) (hw : a.words = some ws) (hlen : 0 < ws.length) :
    wordSegments text (some a) = wordLevelSegments ws := by
  simp [wordSegments, hw, hlen]

theorem wordSegments_eq_charSegments (text : List Char) (a : AlignmentData)
    (hw : a.words = none ∨ a.words = some []) (hc : a.characters ≠ []) :
    wordSegments text (some a) =
      charSegments a.characters a.character_start_times_ms
        a.character_end_times_ms := by
  rcases hw with hw | hw <;> simp [wordSegments, hw, List.length_eq_zero, hc]

/-- Claim C10: with a non-empty word-level array the builder output is the
word-level mapping, independent of the character-level arrays; the
character-level branch runs exactly when the word-level array is absent or
empty and the character array is non-empty. -/
theorem c10_word_level_priority :
    (∀ (text : List Char) (a : AlignmentData) (ws : List AlignmentWord),
      a.words = some ws → 0 < ws.length →
      wordSegments text (some a) = wordLevelSegments ws) ∧
    (∀ (text : List Char) (a b : AlignmentData) (ws : List AlignmentWord),
      a.words = some ws → b.words = some ws → 0 < ws.length →
      wordSegments text (some a) = wordSegments text (some b)) ∧
    (∀ (text : List Char) (a : AlignmentData),
      (a.words = none ∨ a.words = some []) → a.characters ≠ [] →
      wordSegments text (some a) =
        charSegments a.characters a.character_start_times_ms
          a.character_end_times_ms) := by
  refine ⟨wordSegments_eq_wordLevel, ?_, wordSegments_eq_charSegments⟩
  intro text a b ws hwa hwb hlen
  rw [wordSegments_eq_wordLevel text a ws hwa hlen,
    wordSegments_eq_wordLevel text b ws hwb hlen]

/-- Witness for claim C10 at concrete payloads. -/
theorem c10_word_level_priority_witness :
    (wordSegments "x y".data
        (some ⟨"a b".data, [0, 1, 2], [1, 2, 3], some [⟨"q".data, 0, 1⟩]⟩) =
      wordLevelSegments [⟨"q".data, 0, 1⟩]) ∧
    (wordSegments "x".data (some ⟨"a".data, [5], [6], none⟩) =
      charSegments "a".data [5] [6]) :=
  ⟨c10_word_level_priority.1 "x y".data
      ⟨"a b".data, [0, 1, 2], [1, 2, 3], some [⟨"q".data, 0, 1⟩]⟩
      [⟨"q".data, 0, 1⟩] rfl (by decide),
   c10_word_level_priority.2.2 "x".data ⟨"a".data, [5], [6], none⟩
      (Or.inl rfl) (by decide)⟩

/-! ## Claim C7: malformed timing arrays -/

theorem charScanAux_words_congr :
    ∀ (cs : List Char) (i : Nat) (s1 e1 s2 e2 : List ℚ) (st1 st2 : CharScanState),
      st1.words.map WordSegment.word = st2.words.map WordSegment.word →
      st1.currentWord = st2.currentWord →
      st1.wordIndex = st2.wordIndex →
      ((charScanAux s1 e1 cs i st1).words.map WordSegment.word =
          (charScanAux s2 e2 cs i st2).words.map WordSegment.word ∧
        (charScanAux s1 e1 cs i st1).currentWord =
          (charScanAux s2 e2 cs i st2).currentWord ∧
        (charScanAux s1 e1 cs i st1).wordIndex =
          (charScanAux s2 e2 cs i st2).wordIndex) := by
  intro cs
  induction cs with
  | nil => intro i s1 e1 s2 e2 st1 st2 h1 h2 h3; exact ⟨h1, h2, h3⟩
  | cons c rest ih =>
    intro i s1 e1 s2 e2 st1 st2 h1 h2 h3
    have hstep :
        (charStep s1 e1 st1 i c).words.map WordSegment.word =
          (charStep s2 e2 st2 i c).words.map WordSegment.word ∧
        (charStep s1 e1 st1 i c).currentWord = (charStep s2 e2 st2 i c).currentWord ∧
        (charStep s1 e1 st1 i c).wordIndex = (charStep s2 e2 st2 i c).wordIndex := by
      cases hb : isBoundaryChar c with
      | false => simp [charStep, hb, h1, h2, h3]
      | true =>
        by_cases ht : jsTrim st2.currentWord = []
        · simp [charStep, hb, h2, ht, h1, h3]
        · simp [charStep, hb, h2, ht, h1, h3]
    exact ih (i + 1) s1 e1 s2 e2 _ _ hstep.1 hstep.2.1 hstep.2.2

/-- Claim C7 (amended): the builder never fails and always returns a list by
construction; with mismatched or short timing arrays the emitted word
strings and the number of segments are exactly those of the well-formed
case — the characters are not skipped; only the timing fields degrade (an
out-of-bounds read yields an undefined time, `none` in this model). -/
theorem c7_malformed_amended :
    ∀ (chars : List Char) (s1 e1 s2 e2 : List ℚ),
      (charSegments chars s1 e1).map WordSegment.word =
        (charSegments chars s2 e2).map WordSegment.word ∧
      (charSegments chars s1 e1).length = (charSegments chars s2 e2).length := by
  intro chars s1 e1 s2 e2
  have h := charScanAux_words_congr chars 0 s1 e1 s2 e2
    ⟨[], [], some 0, 0⟩ ⟨[], [], some 0, 0⟩ rfl rfl rfl
  rcases h with ⟨hw, hc, hi⟩
  unfold charSegments
  by_cases ht : jsTrim (charScanAux s2 e2 chars 0 ⟨[], [], some 0, 0⟩).currentWord = []
  · have ht1 : jsTrim (charScanAux s1 e1 chars 0 ⟨[], [], some 0, 0⟩).currentWord = [] := by
      rw [hc]; exact ht
    rw [if_pos ht1, if_pos ht]
    refine ⟨hw, ?_⟩
    rw [← List.length_map _ WordSegment.word, hw, List.length_map]
  · have ht1 : ¬ jsTrim (charScanAux s1 e1 chars 0 ⟨[], [], some 0, 0⟩).currentWord = [] := by
      rw [hc]; exact ht
    rw [if_neg ht1, if_neg ht]
    constructor
    · simp only [List.map_append, hw, hc, List.map_cons, List.map_nil]
    · simp only [List.length_append, List.length_cons, List.length_nil]
      rw [← List.length_map _ WordSegment.word, hw, List.length_map]

/-- Counterexample to claim C7 as stated: with characters `"a "` but only
one timing entry, the boundary space reads end time index 1 out of bounds;
the character is not skipped — the segment is emitted with an undefined
(`none`) end time. -/
theorem c7_malformed_counterexample :
    charSegments "a ".data [0] [0] = [⟨"a".data, some 0, none, 0⟩] ∧
    ¬ (∀ w ∈ charSegments "a ".data [0] [0],
        w.startTime ≠ none ∧ w.endTime ≠ none) := by
  with_unfolding_all decide

/-! ## Claim C8: index and ordering invariants -/

theorem enum_map_index_eq_range {α : Type} (l : List α) (f : Nat × α → WordSegment)
    (hf : ∀ p, (f p).index = p.1) :
    (l.enum.map f).map WordSegment.index = List.range l.length := by
  rw [List.map_map]
  have hfe : (WordSegment.index ∘ f) = Prod.fst := funext hf
  rw [hfe, List.enum_map_fst]

theorem enum_map_comp_snd {α β : Type} (l : List α) (h : α → β) :
    l.enum.map (fun p => h p.2) = l.map h := by
  have hfe : (fun p : Nat × α => h p.2) = h ∘ Prod.snd := rfl
  rw [hfe, ← List.map_map, List.enum_map_snd]

theorem zeroSegments_map_index (cs : List Char) :
    (zeroSegments cs).map WordSegment.index = List.range (zeroSegments cs).length := by
  unfold zeroSegments
  rw [List.length_map, List.enum_length]
  exact enum_map_index_eq_range _ _ (fun p => rfl)

theorem wordLevelSegments_map_index (ws : List AlignmentWord) :
    (wordLevelSegments ws).map WordSegment.index =
      List.range (wordLevelSegments ws).length := by
  unfold wordLevelSegments
  rw [List.length_map, List.enum_length]
  exact enum_map_index_eq_range _ _ (fun p => rfl)

theorem charScanAux_index_inv :
    ∀ (cs : List Char) (i : Nat) (s e : List ℚ) (st : CharScanState),
      st.words.map WordSegment.index = List.range st.wordIndex →
      (charScanAux s e cs i st).words.map WordSegment.index =
        List.range (charScanAux s e cs i st).wordIndex := by
  intro cs
  induction cs with
  | nil => intro i s e st h; exact h
  | cons c rest ih =>
    intro i s e st h
    apply ih
    cases hb : isBoundaryChar c with
    | false => simpa [charStep, hb] using h
    | true =>
      by_cases ht : jsTrim st.currentWord = []
      · simpa [charStep, hb, ht] using h
      · simp [charStep, hb, ht, List.map_append, h, List.range_succ]

theorem charSegments_map_index (chars : List Char) (s e : List ℚ) :
    (charSegments chars s e).map WordSegment.index =
      List.range (charSegments chars s e).length := by
  have h := charScanAux_index_inv chars 0 s e ⟨[], [], some 0, 0⟩ (by simp)
  unfold charSegments
  have hlen : (charScanAux s e chars 0 ⟨[], [], some 0, 0⟩).words.length =
      (charScanAux s e chars 0 ⟨[], [], some 0, 0⟩).wordIndex := by
    rw [← List.length_map _ WordSegment.index, h, List.length_range]
  by_cases ht : jsTrim (charScanAux s e chars 0 ⟨[], [], some 0, 0⟩).currentWord = []
  · rw [if_pos ht, h, hlen]
  · rw [if_neg ht, List.map_append, h]
    simp only [List.map_cons, List.map_nil, List.length_append, List.length_cons,
      List.length_nil, hlen]
    rw [← List.range_succ]

theorem wordSegments_map_index :
    ∀ (text : List Char) (a : Option AlignmentData),
      (wordSegments text a).map WordSegment.index =
        List.range (wordSegments text a).length := by
  intro text a
  cases a with
  | none => exact zeroSegments_map_index text
  | some a =>
    obtain ⟨chars, sms, ems, wso⟩ := a
    cases wso with
    | none =>
      by_cases hc : chars.length = 0
      · have hredux : wordSegments text (some ⟨chars, sms, ems, none⟩) =
            zeroSegments text := by simp [wordSegments, hc]
        rw [hredux]; exact zeroSegments_map_index text
      · have hredux : wordSegments text (some ⟨chars, sms, ems, none⟩) =
            charSegments chars sms ems := by simp [wordSegments, hc]
        rw [hredux]; exact charSegments_map_index chars sms ems
    | some ws =>
      cases ws with
      | nil =>
        by_cases hc : chars.length = 0
        · have hredux : wordSegments text (some ⟨chars, sms, ems, some []⟩) =
              zeroSegments text := by simp [wordSegments, hc]
          rw [hredux]; exact zeroSegments_map_index text
        · have hredux : wordSegments text (some ⟨chars, sms, ems, some []⟩) =
              charSegments chars sms ems := by simp [wordSegments, hc]
          rw [hredux]; exact charSegments_map_index chars sms ems
      | cons w0 wrest =>
        have hredux : wordSegments text (some ⟨chars, sms, ems, some (w0 :: wrest)⟩) =
            wordLevelSegments (w0 :: wrest) := by simp [wordSegments]
        rw [hredux]; exact wordLevelSegments_map_index (w0 :: wrest)

theorem charStep_start_inv (s e : List ℚ) (st : CharScanState) (i : Nat) (c : Char)
    (hi : i < s.length) (h : CharStartInv s i st) :
    CharStartInv s (i + 1) (charStep s e st i c) := by
  rcases h with ⟨ms, hmap, hsub, hcur⟩
  have htake : List.Sublist (s.take i) (s.take (i + 1)) := by
    rw [List.take_succ]
    exact List.sublist_append_left _ _
  have hget : s.get? i = some (s.get ⟨i, hi⟩) := List.get?_eq_get hi
  have htakes : s.take (i + 1) = s.take i ++ [s.get ⟨i, hi⟩] := by
    rw [List.take_succ, List.getElem?_eq_getElem hi]
    rfl
  cases hb : isBoundaryChar c with
  | false =>
    by_cases hc0 : st.currentWord = []
    · refine ⟨ms, ?_, hsub.trans htake, ?_⟩
      · simpa [charStep, hb] using hmap
      · intro _
        refine ⟨s.get ⟨i, hi⟩, ?_, ?_⟩
        · simp [charStep, hb, hc0, hget]
        · rw [htakes]
          exact hsub.append (List.Sublist.refl _)
    · refine ⟨ms, ?_, hsub.trans htake, ?_⟩
      · simpa [charStep, hb] using hmap
      · intro _
        rcases hcur hc0 with ⟨v, hv, hvs⟩
        exact ⟨v, by simpa [charStep, hb, hc0] using hv, hvs.trans htake⟩
  | true =>
    by_cases ht : jsTrim st.currentWord = []
    · refine ⟨ms, ?_, hsub.trans htake, ?_⟩
      · simpa [charStep, hb, ht] using hmap
      · intro hcw
        have hcw' : st.currentWord ≠ [] := by
          simpa [charStep, hb, ht] using hcw
        rcases hcur hcw' with ⟨v, hv, hvs⟩
        exact ⟨v, by simpa [charStep, hb, ht] using hv, hvs.trans htake⟩
    · have hcw : st.currentWord ≠ [] := by
        intro h0
        rw [h0] at ht
        exact ht rfl
      rcases hcur hcw with ⟨v, hv, hvs⟩
      refine ⟨ms ++ [v], ?_, hvs.trans htake, ?_⟩
      · simp [charStep, hb, ht, List.map_append, hmap, hv]
      · intro hcw2
        simp [charStep, hb, ht] at hcw2

theorem charScanAux_start_inv :
    ∀ (cs : List Char) (i : Nat) (s e : List ℚ) (st : CharScanState),
      i + cs.length ≤ s.length → CharStartInv s i st →
      CharStartInv s (i + cs.length) (charScanAux s e cs i st) := by
  intro cs
  induction cs with
  | nil => intro i s e st _ h; simpa using h
  | cons c rest ih =>
    intro i s e st hlen h
    have hi : i < s.length := by
      simp only [List.length_cons] at hlen; omega
    have h1 := charStep_start_inv s e st i c hi h
    have hlen' : (i + 1) + rest.length ≤ s.length := by
      simp only [List.length_cons] at hlen; omega
    have h2 := ih (i + 1) s e (charStep s e st i c) hlen' h1
    have harith : i + (c :: rest).length = (i + 1) + rest.length := by
      simp only [List.length_cons]; omega
    rw [harith]
    exact h2

theorem charSegments_start_mono (chars : List Char) (s e : List ℚ)
    (hlen : chars.length ≤ s.length) (hsorted : List.Pairwise (· ≤ ·) s) :
    ∃ qs : List ℚ,
      (charSegments chars s e).map WordSegment.startTime = qs.map some ∧
      List.Chain' (· ≤ ·) qs := by
  have hinit : CharStartInv s 0 ⟨[], [], some 0, 0⟩ := by
    refine ⟨[], by simp, by simp, ?_⟩
    intro h0
    exact absurd rfl h0
  have hinv := charScanAux_start_inv chars 0 s e ⟨[], [], some 0, 0⟩
    (by simpa using hlen) hinit
  rcases hinv with ⟨ms, hmap, hsub, hcur⟩
  have hdivmono : ∀ a b : ℚ, a ≤ b → a / 1000 ≤ b / 1000 := fun a b hab =>
    div_le_div_of_nonneg_right hab (by norm_num)
  unfold charSegments
  by_cases ht : jsTrim (charScanAux s e chars 0 ⟨[], [], some 0, 0⟩).currentWord = []
  · rw [if_pos ht]
    refine ⟨ms.map (· / 1000), ?_, ?_⟩
    · rw [hmap, List.map_map]
      rfl
    · apply List.chain'_iff_pairwise.mpr
      exact List.Pairwise.map _ hdivmono
        (hsorted.sublist (hsub.trans (List.take_sublist _ _)))
  · rw [if_neg ht]
    have hcw : (charScanAux s e chars 0 ⟨[], [], some 0, 0⟩).currentWord ≠ [] := by
      intro h0
      rw [h0] at ht
      exact ht rfl
    rcases hcur hcw with ⟨v, hv, hvs⟩
    refine ⟨(ms ++ [v]).map (· / 1000), ?_, ?_⟩
    · simp only [List.map_append, List.map_map, hmap, hv, List.map_cons, List.map_nil,
        Option.map_some]
      rfl
    · apply List.chain'_iff_pairwise.mpr
      exact List.Pairwise.map _ hdivmono
        (hsorted.sublist (hvs.trans (List.take_sublist _ _)))

theorem wordLevelSegments_start_mono (ws : List AlignmentWord)
    (h : List.Chain' (fun u v : AlignmentWord => u.start ≤ v.start) ws) :
    ∃ qs : List ℚ,
      (wordLevelSegments ws).map WordSegment.startTime = qs.map some ∧
      List.Chain' (· ≤ ·) qs := by
  refine ⟨ws.map AlignmentWord.start, ?_, ?_⟩
  · unfold wordLevelSegments
    rw [List.map_map]
    have hfe : (WordSegment.startTime ∘
        fun p : Nat × AlignmentWord => (⟨p.2.text, some p.2.start, some p.2.«end», p.1⟩ :
          WordSegment)) = fun p : Nat × AlignmentWord => some p.2.start := rfl
    rw [hfe, enum_map_comp_snd ws (fun w => some w.start), List.map_map]
    rfl
  · exact (List.chain'_map AlignmentWord.start).mpr h

/-- Claim C8: every output of the segment builder carries `index i` at
position `i`; and under an ordered non-degenerate payload (word-level
entries with non-decreasing starts, or character start times non-decreasing
with a timing array covering the characters), consecutive segment start
times are non-decreasing (and all defined). -/
theorem c8_ordering :
    (∀ (text : List Char) (a : Option AlignmentData),
      (wordSegments text a).map WordSegment.index =
        List.range (wordSegments text a).length) ∧
    (∀ (text : List Char) (a : AlignmentData) (ws : List AlignmentWord),
      a.words = some ws → 0 < ws.length →
      List.Chain' (fun u v : AlignmentWord => u.start ≤ v.start) ws →
      ∃ qs : List ℚ,
        (wordSegments text (some a)).map WordSegment.startTime = qs.map some ∧
        List.Chain' (· ≤ ·) qs) ∧
    (∀ (text : List Char) (a : AlignmentData),
      (a.words = none ∨ a.words = some []) → a.characters ≠ [] →
      a.characters.length = a.character_start_times_ms.length →
      List.Pairwise (· ≤ ·) a.character_start_times_ms →
      ∃ qs : List ℚ,
        (wordSegments text (some a)).map WordSegment.startTime = qs.map some ∧
        List.Chain' (· ≤ ·) qs) := by
  refine ⟨wordSegments_map_index, ?_, ?_⟩
  · intro text a ws hw hlen hchain
    rw [wordSegments_eq_wordLevel text a ws hw hlen]
    exact wordLevelSegments_start_mono ws hchain
  · intro text a hw hc hlen hsorted
    rw [wordSegments_eq_charSegments text a hw hc]
    exact charSegments_start_mono _ _ _ (le_of_eq hlen) hsorted

/-- Witness for claim C8 at concrete ordered payloads. -/
theorem c8_ordering_witness :
    (∃ qs : List ℚ,
      (wordSegments "a b".data (some ⟨[], [], [],
        some [⟨"a".data, 0, 1⟩, ⟨"b".data, 2, 3⟩]⟩)).map WordSegment.startTime =
        qs.map some ∧ List.Chain' (· ≤ ·) qs) ∧
    (∃ qs : List ℚ,
      (wordSegments "a b".data (some ⟨"a b".data, [0, 1, 2], [1, 2, 3],
        none⟩)).map WordSegment.startTime = qs.map some ∧
        List.Chain' (· ≤ ·) qs) :=
  ⟨c8_ordering.2.1 "a b".data ⟨[], [], [], some [⟨"a".data, 0, 1⟩, ⟨"b".data, 2, 3⟩]⟩
      [⟨"a".data, 0, 1⟩, ⟨"b".data, 2, 3⟩] rfl (by decide)
      (List.chain'_cons.mpr ⟨by norm_num, List.chain'_singleton _⟩),
   c8_ordering.2.2 "a b".data ⟨"a b".data, [0, 1, 2], [1, 2, 3], none⟩ (Or.inl rfl)
      (by decide) (by decide) (by norm_num [List.pairwise_cons])⟩
